import Mathlib

/-!
Shallow embedding of the `ku-cli-progress` rendering engine
(`src/lib/bar-item.ts`), used to settle the specification claims.

Modelling conventions:
* JavaScript numbers are modelled by `ℚ` (ratios) and `ℤ` (integral
  values such as `value`, `total`, sizes and repeat counts).  `NaN` is not
  representable; every theorem that would be affected carries hypotheses
  (for example `0 ≤ ratio`) that exclude the `NaN` cases in the original.
* `Math.round` is `round : ℚ → ℤ` (Mathlib's `round` is `⌊x + 1/2⌋`,
  which agrees with JavaScript's `Math.round` on all inputs).
* `String.prototype.repeat` throws a `RangeError` on a negative count;
  fallible operations are embedded in `Option`, with `none` standing for
  a thrown exception.
-/

/-- The character `{`. -/
def obrace : Char := Char.ofNat 123

/-- The character `}`. -/
def cbrace : Char := Char.ofNat 125

/-- `s` repeated `n` times (the result of JS `s.repeat(n)` for `n ≥ 0`). -/
def repeatN (s : String) : Nat → String
  | 0 => ""
  | n + 1 => s ++ repeatN s n

/-- JS `String.prototype.repeat`: throws (`none`) on a negative count. -/
def repeatJS (s : String) (n : ℤ) : Option String :=
  if n < 0 then none else some (repeatN s n.toNat)

/-- Association-list lookup (JS object property access, first binding wins). -/
def lookupStr {α : Type} : List (String × α) → String → Option α
  | [], _ => none
  | (k, v) :: m, key => if k = key then some v else lookupStr m key

/-- If `ds` is a prefix of `s`, return the remainder of `s`. -/
def dropDelim? : List Char → List Char → Option (List Char)
  | [], s => some s
  | _ :: _, [] => none
  | d :: ds, c :: cs => if c = d then dropDelim? ds cs else none

/-- Splitting worker for `jsSplit` with a nonempty delimiter `d :: ds`;
`acc` holds the current field reversed.  The `Nat` argument is fuel kept
at least the length of the remaining input (each step consumes one input
character or more), making the recursion structural; the zero-fuel
fallback is unreachable when `jsSplit` supplies `s.length` fuel. -/
def splitAux (d : Char) (ds : List Char) : Nat → List Char → List Char → List (List Char)
  | _, [], acc => [acc.reverse]
  | 0, s, acc => [acc.reverse ++ s]
  | fuel + 1, c :: cs, acc =>
    if c = d then
      match dropDelim? ds cs with
      | some rest => acc.reverse :: splitAux d ds fuel rest []
      | none => splitAux d ds fuel cs (c :: acc)
    else splitAux d ds fuel cs (c :: acc)

/-- JS `String.prototype.split`: split on every occurrence of `delim`
(left to right, non-overlapping); an empty delimiter splits into single
characters, exactly as in JS. -/
def jsSplit (delim s : String) : List String :=
  match delim.data with
  | [] => s.data.map (fun c => String.mk [c])
  | d :: ds => (splitAux d ds s.data.length s.data []).map (fun cs => String.mk cs)

/-- Modelled from the spec: the `Eta` class is not under `src/` (only
`bar-item.ts` is).  Per spec §4.2 it derives `getSpeed`, `getEtaS` and
`getDurationMs` from timing samples external to rendering; we model the
view as stored query results.  `etaS` is kept integral. -/
structure Eta where
  speed : ℚ := 0
  etaS : ℤ := 0
  durationMs : ℤ := 0
deriving DecidableEq

/-- Modelled from the spec: the `Progress` class is not under `src/`.
Per spec §4.1 it carries `value`, `total` (integral here), an optional
`tag`, a string `payload` map, and an `Eta` view. -/
structure Progress where
  value : ℤ := 0
  total : ℤ := 0
  tag : Option String := none
  payload : List (String × String) := []
  eta : Eta := {}
deriving DecidableEq

/-- Modelled from the spec: `getProgress()` returns `value/total` as an
unclamped ratio (spec §4.1).  In `ℚ` the division `v/0` is `0` rather
than JS `NaN`; claims that depend on the ratio carry hypotheses ruling
that case out. -/
def getProgress (p : Progress) : ℚ := (p.value : ℚ) / (p.total : ℚ)

/-- Rendering options of `BarItem` with the constructor's defaults. -/
structure BarOptions where
  completeChar : String := "="
  resumeChar : String := "-"
  width : Nat := 40
  glue : String := ""

/-- A formatter `(str, progress, progresses) => string`. -/
def Formatter : Type := String → Progress → List Progress → String

/-- A data provider `(progress, progresses) => string`; `none` is a
thrown exception. -/
def Provider : Type := Progress → List Progress → Option String

/-- The `BarItem` state after construction.  `userDataProviders` holds
`params.dataProviders`; the effective provider map (built-ins overridden
by user entries, as in the constructor's object spread) is the function
`dataProviders` below. -/
structure BarItem where
  template : String := ""
  tagDelimiter : String := "_"
  options : BarOptions := {}
  formatters : List (String × Formatter) := []
  userDataProviders : List (String × Provider) := []
  progresses : List Progress := []

/-- The `{done, left}` object returned by `getBarParts`. -/
structure BarParts where
  done : String
  left : String

/-- `getBarParts(size)`: both repeats may throw on a negative count. -/
def getBarParts (o : BarOptions) (size : ℤ) : Option BarParts :=
  match repeatJS o.completeChar size with
  | none => none
  | some d =>
    match repeatJS o.resumeChar ((o.width : ℤ) - size) with
    | none => none
    | some l => some ⟨d, l⟩

/-- `bar(done, progress)`: the single-bar string
`parts.done ++ glue ++ parts.left` with `size = round(done * width)`. -/
def bar (b : BarItem) (done : ℚ) (_progress : Progress) : Option String :=
  match getBarParts b.options (round (done * (b.options.width : ℚ))) with
  | none => none
  | some parts => some (parts.done ++ b.options.glue ++ parts.left)

/-- One element of the array built in `renderBars`:
`{ size: Math.round(item.getProgress() * width), item, index }`. -/
structure SizedEntry where
  size : ℤ
  item : Progress
  index : Nat

/-- Insert `x` into a size-sorted list, after every element of equal or
smaller size (the placement a stable ascending sort gives `x`). -/
def sortInsert (x : SizedEntry) : List SizedEntry → List SizedEntry
  | [] => [x]
  | y :: ys => if x.size ≤ y.size then x :: y :: ys else y :: sortInsert x ys

/-- The stable ascending sort by `size` performed by
`.sort((a, b) => Math.sign(a.size - b.size))` (`Array.prototype.sort`
is stable and the comparator orders by `size`; a stable ascending
permutation is unique, so insertion sort computes it). -/
def sortBySize : List SizedEntry → List SizedEntry
  | [] => []
  | x :: xs => sortInsert x (sortBySize xs)

/-- The `reduce` walk of `renderBars`: starting from `prev`, each entry
whose `size` strictly exceeds the previous processed size emits a
segment of length `size - prev`; `prev` always advances to the entry's
size. -/
def walk : List SizedEntry → ℤ → List (SizedEntry × ℤ)
  | [], _ => []
  | e :: es, prev =>
    if e.size - prev > 0 then (e, e.size - prev) :: walk es e.size
    else walk es e.size

/-- The final accumulator size of the `reduce` walk (`leftLength.size`). -/
def finalSize : List SizedEntry → ℤ → ℤ
  | [], prev => prev
  | e :: es, _ => finalSize es e.size

/-- `List.mapM` over `Option`, written out so that a thrown exception
(`none`) aborts the whole computation, as a JS `throw` would. -/
def mapMOpt {α β : Type} (f : α → Option β) : List α → Option (List β)
  | [] => some []
  | x :: xs =>
    match f x with
    | none => none
    | some y =>
      match mapMOpt f xs with
      | none => none
      | some ys => some (y :: ys)

/-- `renderBarsLine(length, item, progresses)`: the `done` part of
`getBarParts(length)`, post-processed by the formatter registered under
`` `${item.getTag()}${tagDelimiter}bar` `` (a tagless progress yields the
JS key `"undefined_bar"`) or, failing that, under `"bar"`. -/
def renderBarsLine (b : BarItem) (length : ℤ) (item : Progress) : Option String :=
  match getBarParts b.options length with
  | none => none
  | some parts =>
    let line := parts.done
    let tagStr := match item.tag with
      | some t => t
      | none => "undefined"
    let fmt := match lookupStr b.formatters (tagStr ++ b.tagDelimiter ++ "bar") with
      | some f => some f
      | none => lookupStr b.formatters "bar"
    match fmt with
    | some f => some (f line item b.progresses)
    | none => some line

/-- The array built at the start of `renderBars`:
`progresses.map((item, index) => (\x7b size, item, index \x7d))`. -/
def barsEntries (b : BarItem) (progresses : List Progress) : List SizedEntry :=
  progresses.enum.map (fun ip =>
    SizedEntry.mk (round (getProgress ip.2 * (b.options.width : ℚ))) ip.2 ip.1)

/-- The list of lines `renderBars` joins with `glue`: the emitted
segments of the sorted walk, then the trailing `resumeChar` fill when
`width - leftLength.size > 0`. -/
def barsLines (b : BarItem) (progresses : List Progress) : Option (List String) :=
  match mapMOpt (fun el => renderBarsLine b el.2 el.1.item)
      (walk (sortBySize (barsEntries b progresses)) 0) with
  | none => none
  | some lines =>
    some (if (b.options.width : ℤ) - finalSize (sortBySize (barsEntries b progresses)) 0 > 0 then
            lines ++ [repeatN b.options.resumeChar
              ((b.options.width : ℤ) - finalSize (sortBySize (barsEntries b progresses)) 0).toNat]
          else lines)

/-- `renderBars(progresses)`: the lines joined with `glue`. -/
def renderBars (b : BarItem) (progresses : List Progress) : Option String :=
  match barsLines b progresses with
  | none => none
  | some lines => some (String.intercalate b.options.glue lines)

/-- `formatNumber(num, suffix)` for an integral `num`; the `Number.isNaN`
branch of the source cannot fire on `ℤ`. -/
def formatNumber (num : ℤ) (suffix : String) : String :=
  toString num ++ suffix

/-- The built-in data providers installed by the constructor. -/
def builtinProvider (b : BarItem) (key : String) : Option Provider :=
  if key = "bars" then some (fun _ progresses => renderBars b progresses)
  else if key = "bar" then some (fun progress _ => bar b (getProgress progress) progress)
  else if key = "speed" then some (fun p _ => some (formatNumber (round p.eta.speed) "/s"))
  else if key = "eta" then some (fun p _ => some (formatNumber p.eta.etaS "s"))
  else if key = "value" then some (fun p _ => some (toString p.value))
  else if key = "total" then some (fun p _ => some (toString p.total))
  else if key = "percentage" then
    some (fun p _ => some (toString (round (getProgress p * 100)) ++ "%"))
  else if key = "duration" then
    some (fun p _ => some (toString (round ((p.eta.durationMs : ℚ) / 1000)) ++ "s"))
  else none

/-- The effective provider map `{ ...builtins, ...params.dataProviders }`:
a user entry overrides the built-in of the same key. -/
def dataProviders (b : BarItem) (key : String) : Option Provider :=
  match lookupStr b.userDataProviders key with
  | some f => some f
  | none => builtinProvider b key

/-- `getDataValue(key, item)`: payload first, else the data provider,
else `null`.  `some (some s)` is a string, `some none` is `null`, and
`none` is a thrown exception inside a provider. -/
def getDataValue (b : BarItem) (key : String) (item : Progress) : Option (Option String) :=
  match lookupStr item.payload key with
  | some v => some (some v)
  | none =>
    match dataProviders b key with
    | some f =>
      match f item b.progresses with
      | none => none
      | some s => some (some s)
    | none => some none

/-- The literal text the regex matched for a placeholder with interior
`content`: `\x7b` ++ content ++ `\x7d`. -/
def placeholderText (content : String) : String :=
  String.mk (obrace :: content.data) ++ String.mk [cbrace]

/-- The per-render counter map of `getCounterByProperty` (a JS `Map`). -/
def CtrMap : Type := List (String × Nat)

/-- `map.get(key) ?? 0`. -/
def ctrGet : CtrMap → String → Nat
  | [], _ => 0
  | (k, v) :: m, key => if k = key then v else ctrGet m key

/-- `map.set(key, v)`. -/
def ctrSet : CtrMap → String → Nat → CtrMap
  | [], key, v => [(key, v)]
  | (k, w) :: m, key, v =>
    if k = key then (k, v) :: m else (k, w) :: ctrSet m key v

/-- One call of the closure returned by `getCounterByProperty(max)`:
reads the counter, bumps it (even when the bound is exceeded), and
yields `-1` once `index >= max`. -/
def nextIdx (max : Nat) (m : CtrMap) (key : String) : ℤ × CtrMap :=
  let index := ctrGet m key
  let m' := ctrSet m key (index + 1)
  (if index ≥ max then -1 else (index : ℤ), m')

/-- The destructuring `const [property, tag] = prop.split(tagDelimiter).reverse()`,
followed by the truthiness test on `tag`: the property is the last split
field; the tag is the second-to-last field when present and nonempty. -/
def splitPlaceholder (delim content : String) : String × Option String :=
  let rev := (jsSplit delim content).reverse
  (rev.headD "",
    match rev[1]? with
    | none => none
    | some t => if t = "" then none else some t)

/-- The body of the `render` callback after a progress has been bound:
payload/provider lookup, the `null` passthrough, and the formatter keyed
by the full bracket interior `content`. -/
def resolveProgress (b : BarItem) (content property : String) (progress : Progress) :
    Option String :=
  match getDataValue b property progress with
  | none => none
  | some none => some (placeholderText content)
  | some (some value) =>
    match lookupStr b.formatters content with
    | some f => some (f value progress b.progresses)
    | none => some value

/-- The body of the `render` callback after the index has been resolved:
`index < 0` leaves the literal match; an out-of-range index would make
`this.progresses[index].getPayload()` throw. -/
def resolveIndexed (b : BarItem) (content property : String) (index : ℤ) : Option String :=
  if index < 0 then some (placeholderText content)
  else
    match b.progresses[index.toNat]? with
    | none => none
    | some progress => resolveProgress b content property progress

/-- The `render` callback for one matched placeholder: split the interior,
resolve the index by tag lookup or positional counter, then delegate.
The counter map is threaded; a tagged placeholder leaves it untouched. -/
def resolvePh (b : BarItem) (content : String) (m : CtrMap) : Option String × CtrMap :=
  let pt := splitPlaceholder b.tagDelimiter content
  match pt.2 with
  | some tag =>
    let index : ℤ :=
      match b.progresses.findIdx? (fun p => p.tag = some tag) with
      | some i => (i : ℤ)
      | none => -1
    (resolveIndexed b content pt.1 index, m)
  | none =>
    let im := nextIdx b.progresses.length m pt.1
    (resolveIndexed b content pt.1 im.1, im.2)

/-- A token of the template: a literal character, or a placeholder the
regex `/\x7b([^\x7b\x7d]+)\x7d/g` matched with the given interior. -/
inductive Tok where
  | lit (c : Char)
  | ph (content : String)
deriving DecidableEq

/-- After an `\x7b`, try to match `[^\x7b\x7d]+\x7d`: collect non-brace
characters into `acc` until a closing brace. -/
def takeContent : List Char → List Char → Option (List Char × List Char)
  | [], _ => none
  | c :: cs, acc =>
    if c = cbrace then (if acc.isEmpty then none else some (acc.reverse, cs))
    else if c = obrace then none
    else takeContent cs (c :: acc)

/-- Fueled tokenizer body; the fuel stays at least the length of the
remaining input (a successful placeholder match consumes its closing
brace too), making the recursion structural.  The zero-fuel fallback is
unreachable when `scanTemplate` supplies `s.length` fuel. -/
def scanTemplateF : Nat → List Char → List Tok
  | _, [] => []
  | 0, s => s.map Tok.lit
  | fuel + 1, c :: cs =>
    if c = obrace then
      match takeContent cs [] with
      | some (content, rest) => Tok.ph (String.mk content) :: scanTemplateF fuel rest
      | none => Tok.lit c :: scanTemplateF fuel cs
    else Tok.lit c :: scanTemplateF fuel cs

/-- Tokenize a template exactly as the global regex scan of
`String.prototype.replace` does: at an opening brace try to match a
placeholder; on failure the brace is literal text and scanning resumes
with the next character. -/
def scanTemplate (s : List Char) : List Tok := scanTemplateF s.length s

/-- Process the token list left to right, threading the counter map and
concatenating replacements; a thrown exception (`none`) aborts. -/
def renderGo (b : BarItem) : List Tok → CtrMap → Option String × CtrMap
  | [], m => (some "", m)
  | Tok.lit c :: ts, m =>
    let rm := renderGo b ts m
    (match rm.1 with
     | none => none
     | some s => some (c.toString ++ s), rm.2)
  | Tok.ph content :: ts, m =>
    let sm := resolvePh b content m
    match sm.1 with
    | none => (none, sm.2)
    | some s =>
      let rm := renderGo b ts sm.2
      (match rm.1 with
       | none => none
       | some r => some (s ++ r), rm.2)

/-- `render()`: scan the template and resolve every placeholder with a
fresh counter map. -/
def renderString (b : BarItem) : Option String :=
  (renderGo b (scanTemplate b.template.data) []).1

/-- `render()` as a state transformer.  The body of `render` assigns to
no field of the `BarItem` or of any `Progress` (the only mutable state
it touches is the counter `Map` created afresh inside each call), so the
resulting state is the input state. -/
def renderStep (b : BarItem) : Option String × BarItem :=
  (renderString b, b)

/-- The number of placeholder tokens in `ts` that are untagged
occurrences of property `p` (under delimiter `d`). -/
def countUntagged (d p : String) : List Tok → Nat
  | [] => 0
  | Tok.lit _ :: ts => countUntagged d p ts
  | Tok.ph content :: ts =>
    if splitPlaceholder d content = (p, none) then countUntagged d p ts + 1
    else countUntagged d p ts

/-! ## Helper lemmas -/

theorem round_le_of_le {x y : ℚ} (h : x ≤ y) : round x ≤ round y := by
  rw [round_eq, round_eq]
  exact Int.floor_le_floor (by linarith)

theorem repeatN_length (s : String) (n : Nat) :
    (repeatN s n).length = n * s.length := by
  induction n with
  | zero => simp [repeatN]
  | succ n ih => simp [repeatN, String.length_append, ih]; ring

theorem repeatJS_of_nonneg (s : String) {n : ℤ} (h : 0 ≤ n) :
    repeatJS s n = some (repeatN s n.toNat) := by
  simp [repeatJS, not_lt.2 h]

theorem getBarParts_eq (o : BarOptions) {size : ℤ}
    (h0 : 0 ≤ size) (hw : size ≤ (o.width : ℤ)) :
    getBarParts o size =
      some ⟨repeatN o.completeChar size.toNat,
            repeatN o.resumeChar ((o.width : ℤ) - size).toNat⟩ := by
  rw [getBarParts, repeatJS_of_nonneg _ h0, repeatJS_of_nonneg _ (by omega)]

theorem ctrGet_ctrSet_self (m : CtrMap) (k : String) (v : Nat) :
    ctrGet (ctrSet m k v) k = v := by
  induction m with
  | nil => simp [ctrGet, ctrSet]
  | cons kv m ih =>
    by_cases h : kv.1 = k <;> simp [ctrGet, ctrSet, h, ih]

theorem ctrGet_ctrSet_ne (m : CtrMap) {k k' : String} (v : Nat) (h : k ≠ k') :
    ctrGet (ctrSet m k v) k' = ctrGet m k' := by
  induction m with
  | nil => simp [ctrGet, ctrSet, h]
  | cons kv m ih =>
    by_cases hk : kv.1 = k
    · simp [ctrGet, ctrSet, hk, h]
    · simp [ctrGet, ctrSet, hk, ih]

theorem mapMOpt_eq_map {α β : Type} (f : α → Option β) (g : α → β) (l : List α)
    (h : ∀ x ∈ l, f x = some (g x)) : mapMOpt f l = some (l.map g) := by
  induction l with
  | nil => rfl
  | cons x xs ih =>
    simp only [mapMOpt, h x (List.mem_cons_self x xs),
      ih (fun y hy => h y (List.mem_cons_of_mem x hy)), List.map_cons]

theorem sortInsert_perm (x : SizedEntry) (l : List SizedEntry) :
    List.Perm (sortInsert x l) (x :: l) := by
  induction l with
  | nil => exact List.Perm.refl _
  | cons y ys ih =>
    by_cases h : x.size ≤ y.size
    · simp [sortInsert, h]
    · simp only [sortInsert, if_neg h]
      exact (List.Perm.cons y ih).trans (List.Perm.swap x y ys)

theorem sortBySize_perm (l : List SizedEntry) : List.Perm (sortBySize l) l := by
  induction l with
  | nil => exact List.Perm.refl _
  | cons x xs ih => exact (sortInsert_perm x (sortBySize xs)).trans (List.Perm.cons x ih)

theorem sortInsert_pairwise (x : SizedEntry) (l : List SizedEntry)
    (h : l.Pairwise (fun a b => a.size ≤ b.size)) :
    (sortInsert x l).Pairwise (fun a b => a.size ≤ b.size) := by
  induction l with
  | nil => simp [sortInsert]
  | cons y ys ih =>
    rcases List.pairwise_cons.1 h with ⟨hy, hys⟩
    by_cases hxy : x.size ≤ y.size
    · simp only [sortInsert, if_pos hxy]
      refine List.pairwise_cons.2 ⟨?_, h⟩
      intro z hz
      rcases List.mem_cons.1 hz with rfl | hz'
      · exact hxy
      · exact le_trans hxy (hy z hz')
    · simp only [sortInsert, if_neg hxy]
      refine List.pairwise_cons.2 ⟨?_, ih hys⟩
      intro z hz
      rcases List.mem_cons.1 ((sortInsert_perm x ys).mem_iff.1 hz) with rfl | hz'
      · exact le_of_not_le hxy
      · exact hy z hz'

theorem sortBySize_pairwise (l : List SizedEntry) :
    (sortBySize l).Pairwise (fun a b => a.size ≤ b.size) := by
  induction l with
  | nil => simp [sortBySize]
  | cons x xs ih => exact sortInsert_pairwise x (sortBySize xs) ih

theorem filter_sortInsert (x : SizedEntry) (l : List SizedEntry) (k : ℤ) :
    (sortInsert x l).filter (fun e => e.size == k) =
      if x.size = k then x :: l.filter (fun e => e.size == k)
      else l.filter (fun e => e.size == k) := by
  induction l with
  | nil => by_cases hxk : x.size = k <;> simp [sortInsert, List.filter_cons, hxk]
  | cons y ys ih =>
    by_cases hxy : x.size ≤ y.size
    · simp only [sortInsert, if_pos hxy]
      by_cases hxk : x.size = k <;> simp [List.filter_cons, hxk]
    · simp only [sortInsert, if_neg hxy]
      rw [List.filter_cons, ih]
      by_cases hxk : x.size = k
      · have hyk : ¬ y.size = k := fun h => hxy (le_of_eq (hxk.trans h.symm))
        simp [hxk, hyk]
      · by_cases hyk : y.size = k <;> simp [hxk, hyk]

theorem filter_sortBySize (l : List SizedEntry) (k : ℤ) :
    (sortBySize l).filter (fun e => e.size == k) = l.filter (fun e => e.size == k) := by
  induction l with
  | nil => rfl
  | cons x xs ih =>
    by_cases hxk : x.size = k <;>
      simp [sortBySize, filter_sortInsert, List.filter_cons, hxk, ih]

/-- A list sorted by `size` is determined by its equal-`size` classes:
two sorted lists whose filtered classes agree are equal.  Hence there is
only one stable ascending sort result, and `sortBySize` models
`Array.prototype.sort` (stable, comparator `Math.sign(a.size - b.size)`)
exactly. -/
theorem stable_sort_unique (l₁ l₂ : List SizedEntry)
    (hp₁ : l₁.Pairwise (fun a b => a.size ≤ b.size))
    (hp₂ : l₂.Pairwise (fun a b => a.size ≤ b.size))
    (hf : ∀ k, l₁.filter (fun e => e.size == k) = l₂.filter (fun e => e.size == k)) :
    l₁ = l₂ := by
  induction l₁ generalizing l₂ with
  | nil =>
    cases l₂ with
    | nil => rfl
    | cons y ys =>
      have h := hf y.size
      simp [List.filter_cons] at h
  | cons x xs ih =>
    cases l₂ with
    | nil =>
      have h := hf x.size
      simp [List.filter_cons] at h
    | cons y ys =>
      rcases List.pairwise_cons.1 hp₁ with ⟨hx, hxs⟩
      rcases List.pairwise_cons.1 hp₂ with ⟨hy, hys⟩
      have hsz : x.size = y.size := by
        rcases lt_trichotomy x.size y.size with hlt | heq | hgt
        · exfalso
          have hxmem : x ∈ List.filter (fun e => e.size == x.size) (x :: xs) :=
            List.mem_filter.2 ⟨List.mem_cons_self x xs, by simp⟩
          rw [hf x.size] at hxmem
          rcases List.mem_cons.1 (List.mem_filter.1 hxmem).1 with rfl | hmem
          · exact lt_irrefl _ hlt
          · have h := hy x hmem
            omega
        · exact heq
        · exfalso
          have hymem : y ∈ List.filter (fun e => e.size == y.size) (y :: ys) :=
            List.mem_filter.2 ⟨List.mem_cons_self y ys, by simp⟩
          rw [← hf y.size] at hymem
          rcases List.mem_cons.1 (List.mem_filter.1 hymem).1 with rfl | hmem
          · exact lt_irrefl _ hgt
          · have h := hx y hmem
            omega
      have hxy : x = y := by
        have h := hf x.size
        simp only [List.filter_cons] at h
        rw [if_pos (show (x.size == x.size) = true by simp),
          if_pos (show (y.size == x.size) = true by simp [hsz])] at h
        injection h with h1 h2
      subst hxy
      have htail : xs = ys := by
        refine ih ys hxs hys ?_
        intro k
        have h := hf k
        simp only [List.filter_cons] at h
        by_cases hk : x.size = k
        · rw [if_pos (show (x.size == k) = true by simp [hk]),
            if_pos (show (x.size == k) = true by simp [hk])] at h
          injection h with h1 h2
        · rwa [if_neg (show ¬ (x.size == k) = true by simp [hk]),
            if_neg (show ¬ (x.size == k) = true by simp [hk])] at h
      rw [htail]

theorem sortBySize_unique (l l' : List SizedEntry)
    (hsorted : l'.Pairwise (fun a b => a.size ≤ b.size))
    (hstable : ∀ k, l'.filter (fun e => e.size == k) = l.filter (fun e => e.size == k)) :
    l' = sortBySize l :=
  stable_sort_unique l' (sortBySize l) hsorted (sortBySize_pairwise l)
    (fun k => (hstable k).trans (filter_sortBySize l k).symm)

theorem walk_eq_filterMap (l : List SizedEntry) (prev : ℤ) :
    walk l prev =
      (l.zip (prev :: l.map SizedEntry.size)).filterMap
        (fun ep => if ep.1.size - ep.2 > 0 then some (ep.1, ep.1.size - ep.2) else none) := by
  induction l generalizing prev with
  | nil => rfl
  | cons e es ih =>
    by_cases h : e.size - prev > 0
    · have h' : prev < e.size := by omega
      simp [walk, h, h', List.filterMap_cons, ih e.size]
    · have h' : ¬ prev < e.size := by omega
      simp [walk, h, h', List.filterMap_cons, ih e.size]

theorem walk_sum (l : List SizedEntry) (prev : ℤ)
    (hlo : ∀ e ∈ l, prev ≤ e.size)
    (hs : l.Pairwise (fun a b => a.size ≤ b.size)) :
    ((walk l prev).map (fun x => x.2)).sum = finalSize l prev - prev := by
  induction l generalizing prev with
  | nil => simp [walk, finalSize]
  | cons e es ih =>
    rcases List.pairwise_cons.1 hs with ⟨hlo', hs'⟩
    have hpe : prev ≤ e.size := hlo e (List.mem_cons_self e es)
    by_cases hgt : e.size - prev > 0
    · simp only [walk, if_pos hgt, List.map_cons, List.sum_cons, finalSize]
      rw [ih e.size hlo' hs']
      ring
    · have heq : e.size = prev := by omega
      simp only [walk, if_neg hgt, finalSize]
      rw [ih e.size hlo' hs']
      omega

theorem walk_bounds (l : List SizedEntry) (prev B : ℤ)
    (h0 : 0 ≤ prev) (hub : ∀ e ∈ l, e.size ≤ B)
    (hlo0 : ∀ e ∈ l, 0 ≤ e.size)
    (hs : l.Pairwise (fun a b => a.size ≤ b.size)) :
    ∀ x ∈ walk l prev, 0 < x.2 ∧ x.2 ≤ B := by
  induction l generalizing prev with
  | nil => simp [walk]
  | cons e es ih =>
    rcases List.pairwise_cons.1 hs with ⟨hlo', hs'⟩
    have hub' : ∀ z ∈ es, z.size ≤ B := fun z hz => hub z (List.mem_cons_of_mem e hz)
    have hlo0' : ∀ z ∈ es, 0 ≤ z.size := fun z hz => hlo0 z (List.mem_cons_of_mem e hz)
    have h0' : 0 ≤ e.size := hlo0 e (List.mem_cons_self e es)
    intro x hx
    by_cases hgt : e.size - prev > 0
    · simp only [walk, if_pos hgt, List.mem_cons] at hx
      rcases hx with rfl | hx
      · exact ⟨hgt, by have := hub e (List.mem_cons_self e es); omega⟩
      · exact ih e.size h0' hub' hlo0' hs' x hx
    · simp only [walk, if_neg hgt] at hx
      exact ih e.size h0' hub' hlo0' hs' x hx

theorem finalSize_le (l : List SizedEntry) (prev B : ℤ)
    (hub : ∀ e ∈ l, e.size ≤ B) (hp : prev ≤ B) : finalSize l prev ≤ B := by
  induction l generalizing prev with
  | nil => exact hp
  | cons e es ih =>
    exact ih e.size (fun z hz => hub z (List.mem_cons_of_mem e hz))
      (hub e (List.mem_cons_self e es))

theorem finalSize_nonneg (l : List SizedEntry) (prev : ℤ)
    (h0 : 0 ≤ prev) (hlo : ∀ e ∈ l, 0 ≤ e.size) : 0 ≤ finalSize l prev := by
  induction l generalizing prev with
  | nil => exact h0
  | cons e es ih =>
    exact ih e.size (hlo e (List.mem_cons_self e es))
      (fun z hz => hlo z (List.mem_cons_of_mem e hz))

theorem resolvePh_ctr (b : BarItem) (content : String) (m : CtrMap) (p : String) :
    ctrGet (resolvePh b content m).2 p =
      ctrGet m p +
        (if splitPlaceholder b.tagDelimiter content = (p, none) then 1 else 0) := by
  rcases hsp : splitPlaceholder b.tagDelimiter content with ⟨q, tag?⟩
  cases tag? with
  | some t =>
    have : (q, some t) ≠ (p, (none : Option String)) := by simp
    simp [resolvePh, hsp, this]
  | none =>
    by_cases hq : q = p
    · subst hq
      simp [resolvePh, hsp, nextIdx, ctrGet_ctrSet_self]
    · simp [resolvePh, hsp, nextIdx, ctrGet_ctrSet_ne m _ hq, hq]

theorem renderGo_ctr (b : BarItem) (ts : List Tok) (m : CtrMap) (p : String)
    (h : (renderGo b ts m).1 ≠ none) :
    ctrGet ((renderGo b ts m).2) p = ctrGet m p + countUntagged b.tagDelimiter p ts := by
  induction ts generalizing m with
  | nil => simp [renderGo, countUntagged]
  | cons t ts ih =>
    cases t with
    | lit c =>
      have h' : (renderGo b ts m).1 ≠ none := by
        intro hn
        exact h (by simp [renderGo, hn])
      simpa [renderGo, countUntagged] using ih m h'
    | ph content =>
      rcases hs : (resolvePh b content m).1 with _ | s
      · exact absurd (by simp [renderGo, hs]) h
      · have h' : (renderGo b ts (resolvePh b content m).2).1 ≠ none := by
          intro hn
          exact h (by simp [renderGo, hs, hn])
        have hstep := resolvePh_ctr b content m p
        have hrest := ih (resolvePh b content m).2 h'
        simp only [renderGo, hs]
        simp only [countUntagged]
        split <;> rename_i hcond <;> simp [hcond] at hstep <;> omega

/-! ## Claim theorems -/

/-- Claim C3: for a progress whose ratio `getProgress()` is `k` with
`0 ≤ k ≤ 1`, the `bar` data provider returns exactly `completeChar`
repeated `round(k * width)` times, then `glue`, then `resumeChar`
repeated `width - round(k * width)` times. -/
theorem single_bar_shape (b : BarItem) (progress : Progress) (k : ℚ)
    (hk : getProgress progress = k) (h0 : 0 ≤ k) (h1 : k ≤ 1) :
    bar b (getProgress progress) progress =
      some (repeatN b.options.completeChar (round (k * (b.options.width : ℚ))).toNat ++
        b.options.glue ++
        repeatN b.options.resumeChar
          ((b.options.width : ℤ) - round (k * (b.options.width : ℚ))).toNat) := by
  have hw0 : (0 : ℚ) ≤ (b.options.width : ℚ) := Nat.cast_nonneg _
  have hs0 : 0 ≤ round (k * (b.options.width : ℚ)) := by
    have h := round_le_of_le (mul_nonneg h0 hw0)
    simpa using h
  have hsw : round (k * (b.options.width : ℚ)) ≤ (b.options.width : ℤ) := by
    have h := round_le_of_le (mul_le_of_le_one_left hw0 h1)
    simpa [round_natCast] using h
  rw [hk]
  unfold bar
  rw [getBarParts_eq b.options hs0 hsw]

/-- Witness for C3 at `k = 1/2`, default options. -/
theorem single_bar_shape_witness :
    bar {} (getProgress { value := 1, total := 2 }) { value := 1, total := 2 } =
      some (repeatN "=" (round ((1 / 2 : ℚ) * ((40 : Nat) : ℚ))).toNat ++ "" ++
        repeatN "-" ((40 : ℤ) - round ((1 / 2 : ℚ) * ((40 : Nat) : ℚ))).toNat) :=
  single_bar_shape {} { value := 1, total := 2 } (1 / 2)
    (by simp only [getProgress]; norm_num) (by norm_num) (by norm_num)

/-- Claim C2 (evidence of the code bug): at ratio `3/2` (value 60 of
total 40) with the default width 40, `size = 60 > width`, the left fill
computes a repeat count of `-20`, and `bar` throws (`none`) instead of
guarding against the negative-length repetition. -/
theorem bar_negative_repeat_throws :
    getProgress { value := 60, total := 40 } = 3 / 2 ∧
    bar {} (getProgress { value := 60, total := 40 }) { value := 60, total := 40 } = none := by
  have hg : getProgress { value := 60, total := 40 } = 3 / 2 := by
    simp only [getProgress]; norm_num
  refine ⟨hg, ?_⟩
  rw [hg]
  unfold bar
  have h : round ((3 / 2 : ℚ) * ((({} : BarItem).options.width : Nat) : ℚ)) = 60 := by
    rw [round_eq]; norm_num
  rw [h]
  decide

/-- Claim C9: `render()` mutates no `BarItem` or `Progress` state, so a
second consecutive render produces the identical output. -/
theorem render_idempotent (b : BarItem) :
    (renderStep b).2 = b ∧ (renderStep ((renderStep b).2)).1 = (renderStep b).1 :=
  ⟨rfl, rfl⟩

/-- Claim C7: a payload entry for the property takes precedence; the
data provider is consulted only when the payload entry is absent; with
`payload: \x7b value: "custom" \x7d` the template placeholder renders
`"custom"`. -/
theorem payload_overrides_provider (b : BarItem) (key : String) (item : Progress) :
    (∀ v, lookupStr item.payload key = some v → getDataValue b key item = some (some v)) ∧
    (lookupStr item.payload key = none →
      getDataValue b key item =
        match dataProviders b key with
        | some f =>
          match f item b.progresses with
          | none => none
          | some s => some (some s)
        | none => some none) ∧
    renderString { template := "{value}",
                   progresses := [{ value := 300, total := 1000,
                                    payload := [("value", "custom")] }] } = some "custom" := by
  refine ⟨?_, ?_, ?_⟩
  · intro v hv
    simp [getDataValue, hv]
  · intro hnone
    simp [getDataValue, hnone]
  · decide

/-- Witness for C7: the payload entry `("value", "custom")` wins. -/
theorem payload_overrides_provider_witness :
    getDataValue {} "value" { payload := [("value", "custom")] } = some (some "custom") :=
  (payload_overrides_provider {} "value" { payload := [("value", "custom")] }).1
    "custom" (by decide)

/-- Claim C6: a placeholder that fails to resolve — unmatched tag,
exhausted positional counter, or a property with neither payload entry
nor data provider — renders as its own literal text, never an error;
in particular `renderString` maps a lone `\x7bnonexistent\x7d` template
to itself. -/
theorem unresolved_placeholder_literal :
    (∀ (b : BarItem) (content p t : String) (m : CtrMap),
        splitPlaceholder b.tagDelimiter content = (p, some t) →
        b.progresses.findIdx? (fun pr => pr.tag = some t) = none →
        resolvePh b content m = (some (placeholderText content), m)) ∧
    (∀ (b : BarItem) (content p : String) (m : CtrMap),
        splitPlaceholder b.tagDelimiter content = (p, none) →
        b.progresses.length ≤ ctrGet m p →
        (resolvePh b content m).1 = some (placeholderText content)) ∧
    (∀ (b : BarItem) (content p : String) (pr : Progress),
        lookupStr pr.payload p = none →
        dataProviders b p = none →
        resolveProgress b content p pr = some (placeholderText content)) ∧
    renderString { template := "{nonexistent}",
                   progresses := [{ value := 300, total := 1000 }] } =
      some "{nonexistent}" := by
  refine ⟨?_, ?_, ?_, ?_⟩
  · intro b content p t m hsplit hfind
    simp [resolvePh, hsplit, hfind, resolveIndexed]
  · intro b content p m hsplit hge
    simp [resolvePh, hsplit, nextIdx, hge, resolveIndexed]
  · intro b content p pr h1 h2
    simp [resolveProgress, getDataValue, h1, h2]
  · decide

/-- Witness for C6: with no progresses, a tagged and an exhausted
untagged lookup both leave the literal text. -/
theorem unresolved_placeholder_literal_witness :
    resolvePh { progresses := [] } "x_value" [] =
      (some (placeholderText "x_value"), []) :=
  unresolved_placeholder_literal.1 { progresses := [] } "x_value" "value" "x" []
    (by decide) (by decide)

/-- Counterexample to C5 as stated: with two delimiters in the interior,
the code takes the tag from the *second-to-last* split field, not from
everything before the last delimiter: `\x7ba_b_value\x7d` resolves tag
`"b"` (not `"a_b"`), so a progress tagged `"a_b"` is not bound and the
placeholder stays literal instead of rendering its value `7`. -/
theorem tag_split_counterexample :
    renderString { template := "{a_b_value}",
                   progresses := [{ value := 7, total := 10, tag := some "a_b" }] } =
      some "{a_b_value}" ∧
    some "{a_b_value}" ≠ some (toString (7 : ℤ)) ∧
    splitPlaceholder "_" "a_b_value" = ("value", some "b") := by decide

/-- Claim C5 as amended: the interior is split on *every* delimiter
occurrence; the property is the last field and the tag the field
immediately before it (`\x7bworker1_bar\x7d` → property `bar`, tag
`worker1`; `\x7bbar\x7d` → no tag; `\x7ba_b_value\x7d` → tag `"b"`).
A nonempty tag binds to the first progress whose tag equals it,
regardless of list position, and the placeholder stays literal when no
progress has that tag. -/
theorem tag_resolution_amended :
    (∀ (b : BarItem) (content p t : String) (m : CtrMap) (i : Nat) (pr : Progress),
        splitPlaceholder b.tagDelimiter content = (p, some t) →
        b.progresses.findIdx? (fun q => q.tag = some t) = some i →
        b.progresses[i]? = some pr →
        resolvePh b content m = (resolveProgress b content p pr, m)) ∧
    (∀ (b : BarItem) (content p t : String) (m : CtrMap),
        splitPlaceholder b.tagDelimiter content = (p, some t) →
        (∀ pr ∈ b.progresses, pr.tag ≠ some t) →
        resolvePh b content m = (some (placeholderText content), m)) ∧
    splitPlaceholder "_" "a_b_value" = ("value", some "b") ∧
    splitPlaceholder "_" "worker1_bar" = ("bar", some "worker1") ∧
    splitPlaceholder "_" "bar" = ("bar", none) ∧
    (∀ order : Bool,
        renderString { template := "{a_value} {b_value}",
                       progresses :=
                         if order then
                           [{ value := 7, total := 10, tag := some "a" },
                            { value := 9, total := 10, tag := some "b" }]
                         else
                           [{ value := 9, total := 10, tag := some "b" },
                            { value := 7, total := 10, tag := some "a" }] } =
          some "7 9") := by
  refine ⟨?_, ?_, by decide, by decide, by decide, ?_⟩
  · intro b content p t m i pr hsplit hfind hget
    simp [resolvePh, hsplit, hfind, resolveIndexed, hget]
  · intro b content p t m hsplit hnone
    have hfind : b.progresses.findIdx? (fun q => q.tag = some t) = none := by
      rw [List.findIdx?_eq_none_iff]
      intro q hq
      simpa using hnone q hq
    simp [resolvePh, hsplit, hfind, resolveIndexed]
  · intro order
    cases order <;> decide

theorem sum_length_repeat (cc : String) (hcc : cc.length = 1)
    (l : List (SizedEntry × ℤ)) :
    ((l.map (fun x => repeatN cc x.2.toNat)).map String.length).sum =
      (l.map (fun x => x.2.toNat)).sum := by
  induction l with
  | nil => rfl
  | cons x xs ih =>
    simp only [List.map_cons, List.sum_cons, repeatN_length, hcc, Nat.mul_one, ih]

theorem sum_toNat_eq (l : List (SizedEntry × ℤ)) (h : ∀ x ∈ l, 0 ≤ x.2) :
    (((l.map (fun x => x.2.toNat)).sum : Nat) : ℤ) = (l.map (fun x => x.2)).sum := by
  induction l with
  | nil => simp
  | cons x xs ih =>
    simp only [List.map_cons, List.sum_cons]
    rw [Nat.cast_add, Int.toNat_of_nonneg (h x (List.mem_cons_self x xs)),
      ih (fun y hy => h y (List.mem_cons_of_mem x hy))]

/-- Claim C8: `renderBars` processes progresses in ascending `size`
order (a stable sort: a permutation, sorted, preserving the original
relative order inside every equal-`size` class), and the walk emits, for
each entry, a segment of length `size - previous processed size` exactly
when that difference is strictly positive — an entry whose size does not
exceed the previously processed size contributes nothing. -/
theorem combined_bar_sort_and_segments :
    (∀ (l : List SizedEntry) (prev : ℤ),
        walk l prev =
          (l.zip (prev :: l.map SizedEntry.size)).filterMap
            (fun ep => if ep.1.size - ep.2 > 0 then some (ep.1, ep.1.size - ep.2) else none)) ∧
    (∀ l : List SizedEntry, List.Perm (sortBySize l) l) ∧
    (∀ l : List SizedEntry, (sortBySize l).Pairwise (fun a b => a.size ≤ b.size)) ∧
    (∀ (l : List SizedEntry) (k : ℤ),
        (sortBySize l).filter (fun e => e.size == k) = l.filter (fun e => e.size == k)) ∧
    (∀ (l l' : List SizedEntry),
        l'.Pairwise (fun a b => a.size ≤ b.size) →
        (∀ k, l'.filter (fun e => e.size == k) = l.filter (fun e => e.size == k)) →
        l' = sortBySize l) :=
  ⟨walk_eq_filterMap, sortBySize_perm, sortBySize_pairwise, filter_sortBySize,
    sortBySize_unique⟩

/-- Witness for C8: the stable-sort characterisation pins down the sort
of a concrete singleton list. -/
theorem combined_bar_sort_and_segments_witness :
    ([⟨3, {}, 0⟩] : List SizedEntry) = sortBySize [⟨3, {}, 0⟩] :=
  combined_bar_sort_and_segments.2.2.2.2 [⟨3, {}, 0⟩] [⟨3, {}, 0⟩]
    (by simp) (fun _ => rfl)

/-- Claim C1: when every ratio lies in `[0, 1]`, the combined bar
renders without error and its lines — the per-progress segments plus the
trailing `resumeChar` fill — total at most `width` characters, the glue
separators excluded (single-character fill glyphs, no formatters
installed). -/
theorem combined_bar_fits (b : BarItem) (ps : List Progress)
    (hfmt : b.formatters = [])
    (hcc : b.options.completeChar.length = 1)
    (hrc : b.options.resumeChar.length = 1)
    (hr : ∀ p ∈ ps, 0 ≤ getProgress p ∧ getProgress p ≤ 1) :
    ∃ L, barsLines b ps = some L ∧
      renderBars b ps = some (String.intercalate b.options.glue L) ∧
      (L.map String.length).sum ≤ b.options.width := by
  have hbnd : ∀ e ∈ barsEntries b ps, 0 ≤ e.size ∧ e.size ≤ (b.options.width : ℤ) := by
    intro e he
    rcases List.mem_map.1 he with ⟨ip, hip, rfl⟩
    rcases hr ip.2 (List.snd_mem_of_mem_enum hip) with ⟨h0, h1⟩
    refine ⟨?_, ?_⟩
    · simpa using round_le_of_le (mul_nonneg h0 (Nat.cast_nonneg b.options.width))
    · have h := round_le_of_le
        (mul_le_of_le_one_left (Nat.cast_nonneg b.options.width) h1)
      simpa [round_natCast] using h
  have hmem : ∀ e ∈ sortBySize (barsEntries b ps),
      0 ≤ e.size ∧ e.size ≤ (b.options.width : ℤ) :=
    fun e he => hbnd e ((sortBySize_perm _).subset he)
  have hpair := sortBySize_pairwise (barsEntries b ps)
  have hwalkb := walk_bounds (sortBySize (barsEntries b ps)) 0 (b.options.width : ℤ)
    le_rfl (fun e he => (hmem e he).2) (fun e he => (hmem e he).1) hpair
  have hline : ∀ x ∈ walk (sortBySize (barsEntries b ps)) 0,
      renderBarsLine b x.2 x.1.item = some (repeatN b.options.completeChar x.2.toNat) := by
    intro x hx
    rcases hwalkb x hx with ⟨hpos, hle⟩
    unfold renderBarsLine
    rw [getBarParts_eq b.options (le_of_lt hpos) hle]
    simp [hfmt, lookupStr]
  have hmap := mapMOpt_eq_map _ (fun x => repeatN b.options.completeChar x.2.toNat)
    (walk (sortBySize (barsEntries b ps)) 0) hline
  have hS0 : 0 ≤ finalSize (sortBySize (barsEntries b ps)) 0 :=
    finalSize_nonneg _ 0 le_rfl (fun e he => (hmem e he).1)
  have hSw : finalSize (sortBySize (barsEntries b ps)) 0 ≤ (b.options.width : ℤ) :=
    finalSize_le _ 0 _ (fun e he => (hmem e he).2) (Int.natCast_nonneg _)
  have hsum := walk_sum (sortBySize (barsEntries b ps)) 0
    (fun e he => (hmem e he).1) hpair
  have hz := sum_toNat_eq (walk (sortBySize (barsEntries b ps)) 0)
    (fun x hx => le_of_lt (hwalkb x hx).1)
  by_cases hfill : (b.options.width : ℤ) - finalSize (sortBySize (barsEntries b ps)) 0 > 0
  · refine ⟨(walk (sortBySize (barsEntries b ps)) 0).map
        (fun x => repeatN b.options.completeChar x.2.toNat) ++
        [repeatN b.options.resumeChar
          ((b.options.width : ℤ) - finalSize (sortBySize (barsEntries b ps)) 0).toNat],
      ?_, ?_, ?_⟩
    · unfold barsLines
      rw [hmap]
      simp [hfill]
    · unfold renderBars barsLines
      rw [hmap]
      simp [hfill]
    · rw [List.map_append, List.sum_append]
      have hfl : (([repeatN b.options.resumeChar
            ((b.options.width : ℤ) -
              finalSize (sortBySize (barsEntries b ps)) 0).toNat]).map String.length).sum =
          ((b.options.width : ℤ) - finalSize (sortBySize (barsEntries b ps)) 0).toNat := by
        simp [repeatN_length, hrc]
      rw [hfl, sum_length_repeat _ hcc]
      omega
  · refine ⟨(walk (sortBySize (barsEntries b ps)) 0).map
        (fun x => repeatN b.options.completeChar x.2.toNat), ?_, ?_, ?_⟩
    · unfold barsLines
      rw [hmap]
      simp [hfill]
    · unfold renderBars barsLines
      rw [hmap]
      simp [hfill]
    · rw [sum_length_repeat _ hcc]
      omega

/-- Witness for C1 at ratios `[0.2, 0.5, 0.8]` and width 10, as in the
spec's example. -/
theorem combined_bar_fits_witness :
    ∃ L, barsLines { options := { width := 10 } }
        [{ value := 2, total := 10 }, { value := 5, total := 10 },
         { value := 8, total := 10 }] = some L ∧
      renderBars { options := { width := 10 } }
        [{ value := 2, total := 10 }, { value := 5, total := 10 },
         { value := 8, total := 10 }] = some (String.intercalate "" L) ∧
      (L.map String.length).sum ≤ 10 :=
  combined_bar_fits { options := { width := 10 } }
    [{ value := 2, total := 10 }, { value := 5, total := 10 },
     { value := 8, total := 10 }]
    rfl rfl rfl
    (by
      intro p hp
      simp only [List.mem_cons, List.not_mem_nil, or_false] at hp
      rcases hp with rfl | rfl | rfl <;>
        constructor <;> simp only [getProgress] <;> norm_num)

/-- Claim C4: within one render pass, the `N`-th untagged occurrence of
a property (counting per property, left to right: `pre` holds the
tokens before the occurrence, so `N = countUntagged … pre`) binds
`progresses[N]`; once `N` reaches the list length the placeholder stays
literal; and `\x7bvalue\x7d \x7bvalue\x7d` over progresses with values
100 and 200 renders `"100 200"`. -/
theorem positional_binding (b : BarItem) (pre : List Tok) (content p : String)
    (hsplit : splitPlaceholder b.tagDelimiter content = (p, none))
    (hpre : (renderGo b pre []).1 ≠ none) :
    (∀ pr, b.progresses[countUntagged b.tagDelimiter p pre]? = some pr →
        (resolvePh b content ((renderGo b pre []).2)).1 = resolveProgress b content p pr) ∧
    (b.progresses[countUntagged b.tagDelimiter p pre]? = none →
        (resolvePh b content ((renderGo b pre []).2)).1 = some (placeholderText content)) ∧
    renderString { template := "{value} {value}",
                   progresses := [{ value := 100, total := 1000 },
                                  { value := 200, total := 1000 }] } = some "100 200" := by
  have hc : ctrGet ((renderGo b pre []).2) p = countUntagged b.tagDelimiter p pre := by
    have h := renderGo_ctr b pre [] p hpre
    simpa [ctrGet] using h
  refine ⟨?_, ?_, by decide⟩
  · intro pr hpr
    have hlt : countUntagged b.tagDelimiter p pre < b.progresses.length :=
      (List.getElem?_eq_some.1 hpr).1
    simp [resolvePh, hsplit, nextIdx, hc, not_le.2 hlt, resolveIndexed, hpr]
  · intro hnone
    have hge : b.progresses.length ≤ countUntagged b.tagDelimiter p pre :=
      List.getElem?_eq_none_iff.1 hnone
    simp [resolvePh, hsplit, nextIdx, hc, hge, resolveIndexed]

/-- Witness for C4: with one untagged `value` placeholder already
processed, the next occurrence binds `progresses[1]` (value 200). -/
theorem positional_binding_witness :
    (∀ pr, ([{ value := 100, total := 1000 },
             { value := 200, total := 1000 }] : List Progress)[countUntagged "_" "value" [Tok.ph "value"]]? = some pr →
        (resolvePh { template := "{value} {value}",
                     progresses := [{ value := 100, total := 1000 },
                                    { value := 200, total := 1000 }] } "value"
            ((renderGo { template := "{value} {value}",
                         progresses := [{ value := 100, total := 1000 },
                                        { value := 200, total := 1000 }] } [Tok.ph "value"] []).2)).1 =
          resolveProgress { template := "{value} {value}",
                            progresses := [{ value := 100, total := 1000 },
                                           { value := 200, total := 1000 }] } "value" "value" pr) ∧
    (([{ value := 100, total := 1000 },
       { value := 200, total := 1000 }] : List Progress)[countUntagged "_" "value" [Tok.ph "value"]]? = none →
        (resolvePh { template := "{value} {value}",
                     progresses := [{ value := 100, total := 1000 },
                                    { value := 200, total := 1000 }] } "value"
            ((renderGo { template := "{value} {value}",
                         progresses := [{ value := 100, total := 1000 },
                                        { value := 200, total := 1000 }] } [Tok.ph "value"] []).2)).1 =
          some (placeholderText "value")) ∧
    renderString { template := "{value} {value}",
                   progresses := [{ value := 100, total := 1000 },
                                  { value := 200, total := 1000 }] } = some "100 200" :=
  positional_binding
    { template := "{value} {value}",
      progresses := [{ value := 100, total := 1000 }, { value := 200, total := 1000 }] }
    [Tok.ph "value"] "value" "value" (by decide) (by decide)

/-- Claim C10: tagged placeholders never advance the positional counter:
the counter map after any token prefix counts exactly the untagged
occurrences per property, a tagged placeholder leaves the map untouched,
and with a tagged occurrence preceding them the untagged occurrences
still bind `progresses[0]`, `progresses[1]`, … in order. -/
theorem tagged_not_counted :
    (∀ (b : BarItem) (ts : List Tok) (m : CtrMap) (p : String),
        (renderGo b ts m).1 ≠ none →
        ctrGet ((renderGo b ts m).2) p = ctrGet m p + countUntagged b.tagDelimiter p ts) ∧
    (∀ (b : BarItem) (content q t : String) (m : CtrMap),
        splitPlaceholder b.tagDelimiter content = (q, some t) →
        (resolvePh b content m).2 = m) ∧
    renderString { template := "{a_value} {value} {value}",
                   progresses := [{ value := 10, total := 100, tag := some "a" },
                                  { value := 20, total := 100 }] } = some "10 10 20" := by
  refine ⟨fun b ts m p h => renderGo_ctr b ts m p h, ?_, by decide⟩
  intro b content q t m hsplit
  simp [resolvePh, hsplit]

/-- Witness for C10: a tagged `a_value` placeholder leaves a nonempty
counter map unchanged. -/
theorem tagged_not_counted_witness :
    (resolvePh { progresses := [{ value := 10, total := 100, tag := some "a" }] }
        "a_value" [("value", 3)]).2 = [("value", 3)] :=
  tagged_not_counted.2.1 { progresses := [{ value := 10, total := 100, tag := some "a" }] }
    "a_value" "value" "a" [("value", 3)] (by decide)

/-- Witness for the amended C5: the `(b)`-tagged progress at position 1
is bound by `\x7ba_value\x7d` even though it is listed second. -/
theorem tag_resolution_amended_witness :
    resolvePh { progresses := [{ value := 9, total := 10, tag := some "b" },
                               { value := 7, total := 10, tag := some "a" }] }
        "a_value" [] =
      (resolveProgress
          { progresses := [{ value := 9, total := 10, tag := some "b" },
                           { value := 7, total := 10, tag := some "a" }] }
          "a_value" "value" { value := 7, total := 10, tag := some "a" }, []) :=
  tag_resolution_amended.1
    { progresses := [{ value := 9, total := 10, tag := some "b" },
                     { value := 7, total := 10, tag := some "a" }] }
    "a_value" "value" "a" [] 1 { value := 7, total := 10, tag := some "a" }
    (by decide) (by decide) (by decide)
